import Mathlib

/-!
Verification of the bencode value model of the `bende` crate
(`src/value.rs`) against its specification.

Modelling conventions:

* Rust byte buffers (`Vec<u8>`, `&[u8]`) are `List Nat` whose elements are
  the byte values; `i64` is `Int` with explicit two's-complement wrapping
  (`% 2 ^ 64`) where the source performs an `as` cast.
* `BTreeMap<String, Value>` is an association list `List (List Nat × Value)`
  whose keys are the raw UTF-8 bytes of the Rust `String`, kept strictly
  ascending in byte-lexicographic order.  Rust's `Ord` on `String` is exactly
  byte-lexicographic order on the UTF-8 bytes, so `byteListCmp` below embeds
  the comparison the `BTreeMap` uses.
* Fallible operations return `Option` / `Except`.
-/

namespace Bende

/-- Three-way byte-lexicographic comparison of byte sequences, embedding the
`Ord` instance Rust's `BTreeMap<String, _>` uses on its keys (byte order on
the UTF-8 encoding). -/
def byteListCmp : List Nat → List Nat → Ordering
  | [], [] => .eq
  | [], _ :: _ => .lt
  | _ :: _, [] => .gt
  | a :: as, b :: bs =>
    if a < b then .lt else if b < a then .gt else byteListCmp as bs

theorem byteListCmp_eq_iff (a b : List Nat) :
    byteListCmp a b = .eq ↔ a = b := by
  induction a generalizing b with
  | nil => cases b <;> simp [byteListCmp]
  | cons x xs ih =>
    cases b with
    | nil => simp [byteListCmp]
    | cons y ys =>
      by_cases h1 : x < y
      · simp [byteListCmp, h1]
        omega
      · by_cases h2 : y < x
        · simp [byteListCmp, h1, h2]
          omega
        · have hxy : x = y := by omega
          subst hxy
          simp [byteListCmp, h1, h2, ih]

theorem byteListCmp_self (a : List Nat) : byteListCmp a a = .eq :=
  (byteListCmp_eq_iff a a).mpr rfl

theorem byteListCmp_gt_iff (a b : List Nat) :
    byteListCmp a b = .gt ↔ byteListCmp b a = .lt := by
  induction a generalizing b with
  | nil => cases b <;> simp [byteListCmp]
  | cons x xs ih =>
    cases b with
    | nil => simp [byteListCmp]
    | cons y ys =>
      by_cases h1 : x < y
      · have h2 : ¬ y < x := by omega
        simp [byteListCmp, h1, h2]
      · by_cases h2 : y < x
        · simp [byteListCmp, h1, h2]
        · simp [byteListCmp, h1, h2, ih]

theorem byteListCmp_lt_ne {a b : List Nat}
    (h : byteListCmp a b = .lt) : a ≠ b := by
  intro he
  subst he
  rw [byteListCmp_self a] at h
  exact Ordering.noConfusion h

theorem byteListCmp_lt_trans {a b c : List Nat}
    (hab : byteListCmp a b = .lt) (hbc : byteListCmp b c = .lt) :
    byteListCmp a c = .lt := by
  induction a generalizing b c with
  | nil =>
    cases b with
    | nil => exact absurd hab (by simp [byteListCmp])
    | cons y ys =>
      cases c with
      | nil => exact absurd hbc (by simp [byteListCmp])
      | cons z zs => simp [byteListCmp]
  | cons x xs ih =>
    cases b with
    | nil => exact absurd hab (by simp [byteListCmp])
    | cons y ys =>
      cases c with
      | nil => exact absurd hbc (by simp [byteListCmp])
      | cons z zs =>
        by_cases hxy : x < y
        · by_cases hyz : y < z
          · have : x < z := by omega
            simp [byteListCmp, this]
          · by_cases hzy : z < y
            · simp [byteListCmp, hyz, hzy] at hbc
            · have : y = z := by omega
              subst this
              simp [byteListCmp, hxy]
        · by_cases hyx : y < x
          · simp [byteListCmp, hxy, hyx] at hab
          · have hxyeq : x = y := by omega
            subst hxyeq
            by_cases hxz : x < z
            · simp [byteListCmp, hxz]
            · by_cases hzx : z < x
              · simp [byteListCmp, hxz, hzx] at hbc
              · have : x = z := by omega
                subst this
                simp [byteListCmp, hxz] at hab hbc ⊢
                exact ih hab hbc

/-- The bencode value type of `src/value.rs`: a closed sum with four
variants.  `Dict` is represented by the contents of the `BTreeMap` as an
association list in ascending key order (the order the map iterates in). -/
inductive Value where
  /-- A 64-bit signed integer. -/
  | int (n : Int) : Value
  /-- An array of bytes that may or may not be valid UTF-8. -/
  | text (s : List Nat) : Value
  /-- A list of bencode values. -/
  | list (vs : List Value) : Value
  /-- A sorted key-value map with keys that are UTF-8 valid strings. -/
  | dict (es : List (List Nat × Value)) : Value

/-- The entries of a `List` value (the `List` type alias is `Vec<Value>`). -/
abbrev ValueList := List Value

/-- The entries of a `Dict` value (the `Dict` type alias is
`BTreeMap<String, Value>`), as the sorted association list the map holds. -/
abbrev DictEntries := List (List Nat × Value)

/-- Accessor `Value::as_i64`: the payload when the value is `Int`, `None`
otherwise. -/
def as_i64 : Value → Option Int
  | .int n => some n
  | _ => none

/-- Accessor `Value::as_bytes`: the byte payload when the value is `Text`,
`None` otherwise. -/
def as_bytes : Value → Option (List Nat)
  | .text s => some s
  | _ => none

/-- Accessor `Value::as_bytes_mut`: same match as `as_bytes`, but handing
back the payload mutably; in this pure embedding it yields the same bytes. -/
def as_bytes_mut : Value → Option (List Nat)
  | .text s => some s
  | _ => none

/-- Accessor `Value::as_list`: the element list when the value is `List`,
`None` otherwise. -/
def as_list : Value → Option (List Value)
  | .list vs => some vs
  | _ => none

/-- Accessor `Value::as_list_mut`: same match as `as_list`, mutably. -/
def as_list_mut : Value → Option (List Value)
  | .list vs => some vs
  | _ => none

/-- Accessor `Value::as_dict`: the map contents when the value is `Dict`,
`None` otherwise. -/
def as_dict : Value → Option DictEntries
  | .dict es => some es
  | _ => none

/-- Accessor `Value::as_dict_mut`: same match as `as_dict`, mutably. -/
def as_dict_mut : Value → Option DictEntries
  | .dict es => some es
  | _ => none

/-- Strict UTF-8 validity of a byte sequence, as checked by
`str::from_utf8`: 1-4 byte sequences, rejecting overlong forms, surrogate
code points (`0xED 0xA0..` and up), and code points above `U+10FFFF`
(`0xF4 0x90..` and up, leads `0xF5..`). -/
def validUtf8 : List Nat → Bool
  | [] => true
  | b :: rest =>
    if b ≤ 127 then validUtf8 rest
    else if b < 194 then false
    else if b ≤ 223 then
      match rest with
      | [] => false
      | b1 :: r1 => if 128 ≤ b1 && b1 ≤ 191 then validUtf8 r1 else false
    else if b ≤ 239 then
      match rest with
      | [] => false
      | b1 :: r1 =>
        if (if b = 224 then 160 ≤ b1 && b1 ≤ 191
            else if b = 237 then 128 ≤ b1 && b1 ≤ 159
            else 128 ≤ b1 && b1 ≤ 191) then
          match r1 with
          | [] => false
          | b2 :: r2 => if 128 ≤ b2 && b2 ≤ 191 then validUtf8 r2 else false
        else false
    else if b ≤ 244 then
      match rest with
      | [] => false
      | b1 :: r1 =>
        if (if b = 240 then 144 ≤ b1 && b1 ≤ 191
            else if b = 244 then 128 ≤ b1 && b1 ≤ 143
            else 128 ≤ b1 && b1 ≤ 191) then
          match r1 with
          | [] => false
          | b2 :: r2 =>
            if 128 ≤ b2 && b2 ≤ 191 then
              match r2 with
              | [] => false
              | b3 :: r3 =>
                if 128 ≤ b3 && b3 ≤ 191 then validUtf8 r3 else false
            else false
        else false
    else false

/-- The error returned by `str::from_utf8` on invalid UTF-8.  Its diagnostic
fields (`valid_up_to`, `error_len`) are not modelled; only its presence,
as distinct from the absent result, matters to the accessor contract. -/
structure Utf8Error where

/-- Accessor `Value::as_str`: `Ok(None)` for non-`Text` values, `Ok(Some _)`
for `Text` with valid UTF-8 (the `&str` shares the same bytes), and
`Err(Utf8Error)` for `Text` whose bytes are not valid UTF-8. -/
def as_str : Value → Except Utf8Error (Option (List Nat))
  | .text s => if validUtf8 s then .ok (some s) else .error ⟨⟩
  | _ => .ok none

/-- Accessor `Value::as_str_mut`: same result shape as `as_str` (the source
uses `str::from_utf8_mut`, which performs the identical validation). -/
def as_str_mut : Value → Except Utf8Error (Option (List Nat))
  | .text s => if validUtf8 s then .ok (some s) else .error ⟨⟩
  | _ => .ok none

/-- The UTF-8 encoding of U+FFFD REPLACEMENT CHARACTER, which
`String::from_utf8_lossy` substitutes for ill-formed subsequences. -/
def replacementBytes : List Nat := [239, 191, 189]

/-- Lossy UTF-8 decoding re-encoded to bytes, as performed by
`String::from_utf8_lossy`: well-formed scalar sequences pass through
verbatim, while each maximal ill-formed subsequence (per the validator's
`error_len`: 1 to 3 bytes, or the whole incomplete suffix) is replaced by
one U+FFFD.  The condition structure mirrors `validUtf8` exactly. -/
def utf8Lossy : List Nat → List Nat
  | [] => []
  | b :: rest =>
    if b ≤ 127 then b :: utf8Lossy rest
    else if b < 194 then replacementBytes ++ utf8Lossy rest
    else if b ≤ 223 then
      match rest with
      | [] => replacementBytes
      | b1 :: r1 =>
        if 128 ≤ b1 && b1 ≤ 191 then b :: b1 :: utf8Lossy r1
        else replacementBytes ++ utf8Lossy (b1 :: r1)
    else if b ≤ 239 then
      match rest with
      | [] => replacementBytes
      | b1 :: r1 =>
        if (if b = 224 then 160 ≤ b1 && b1 ≤ 191
            else if b = 237 then 128 ≤ b1 && b1 ≤ 159
            else 128 ≤ b1 && b1 ≤ 191) then
          match r1 with
          | [] => replacementBytes
          | b2 :: r2 =>
            if 128 ≤ b2 && b2 ≤ 191 then b :: b1 :: b2 :: utf8Lossy r2
            else replacementBytes ++ utf8Lossy (b2 :: r2)
        else replacementBytes ++ utf8Lossy (b1 :: r1)
    else if b ≤ 244 then
      match rest with
      | [] => replacementBytes
      | b1 :: r1 =>
        if (if b = 240 then 144 ≤ b1 && b1 ≤ 191
            else if b = 244 then 128 ≤ b1 && b1 ≤ 143
            else 128 ≤ b1 && b1 ≤ 191) then
          match r1 with
          | [] => replacementBytes
          | b2 :: r2 =>
            if 128 ≤ b2 && b2 ≤ 191 then
              match r2 with
              | [] => replacementBytes
              | b3 :: r3 =>
                if 128 ≤ b3 && b3 ≤ 191 then b :: b1 :: b2 :: b3 :: utf8Lossy r3
                else replacementBytes ++ utf8Lossy (b3 :: r3)
            else replacementBytes ++ utf8Lossy (b2 :: r2)
        else replacementBytes ++ utf8Lossy (b1 :: r1)
    else replacementBytes ++ utf8Lossy rest
  termination_by l => l.length
  decreasing_by all_goals (simp only [List.length_cons]; omega)

/-- Lookup in an association list, as `BTreeMap::get` observes the map's
contents (and as a plain scan observes an unordered list of pairs). -/
def assocLookup : List (List Nat × Value) → List Nat → Option Value
  | [], _ => none
  | (k', v) :: rest, k => if k' = k then some v else assocLookup rest k

/-- Insertion into the sorted association list representing a
`BTreeMap<String, Value>`: `BTreeMap::insert` places the new key at its
ordered position and overwrites the value when the key is already present. -/
def btreeInsert : List (List Nat × Value) → List Nat → Value →
    List (List Nat × Value)
  | [], k, v => [(k, v)]
  | (k', v') :: rest, k, v =>
    match byteListCmp k k' with
    | .lt => (k, v) :: (k', v') :: rest
    | .eq => (k, v) :: rest
    | .gt => (k', v') :: btreeInsert rest k v

/-- Building a `BTreeMap` by inserting a sequence of pairs in order, as both
`BTreeMap::from_iter` (used by `From<HashMap<String, Value>>`) and the
`visit_map` loop of the `Deserialize` impl do. -/
def btreeFromList (l : List (List Nat × Value)) : List (List Nat × Value) :=
  l.foldl (fun acc p => btreeInsert acc p.1 p.2) []

/-- The representation invariant of `BTreeMap` contents: consecutive keys
strictly ascend in byte-lexicographic order. -/
def keysSorted : List (List Nat × Value) → Bool
  | [] => true
  | [_] => true
  | (k1, _) :: (k2, v2) :: rest =>
    match byteListCmp k1 k2 with
    | .lt => keysSorted ((k2, v2) :: rest)
    | _ => false

/-- ASCII decimal digits of a natural number, most significant first, with
explicit fuel (`fuel ≥ n` renders `n` completely); the empty list for 0. -/
def natAsciiAux : Nat → Nat → List Nat
  | 0, _ => []
  | fuel + 1, n =>
    if n = 0 then [] else natAsciiAux fuel (n / 10) ++ [48 + n % 10]

/-- ASCII decimal rendering of a natural number, as Rust's `Display` for
integers produces (and as the bencode encoder emits): no leading zeros,
`0` rendered as `"0"`. -/
def natAscii (n : Nat) : List Nat :=
  if n = 0 then [48] else natAsciiAux n n

/-- ASCII decimal rendering of a signed integer: a `-` (byte 45) prefix for
negative numbers, then the digits of the magnitude. -/
def intAscii (n : Int) : List Nat :=
  if n < 0 then 45 :: natAscii n.natAbs else natAscii n.toNat

mutual

/-- The `Display` rendering of a `Value` from `src/value.rs`, as raw output
bytes.  Integers render in decimal; `Text` renders between `"` quotes after
`String::from_utf8_lossy`; lists render as `[a, b]`; dicts render as
`{ k: v, k: v }` with raw (unquoted) keys, or `{}` when empty.  The
function is total by construction, which embeds the guarantee that the
`fmt` impl cannot fail or panic on any value. -/
def displayValue : Value → List Nat
  | .int n => intAscii n
  | .text s => 34 :: (utf8Lossy s ++ [34])
  | .list vs => 91 :: (displayList vs ++ [93])
  | .dict [] => [123, 125]
  | .dict (e :: es) => 123 :: 32 :: (displayEntries (e :: es) ++ [32, 125])

/-- Comma-separated rendering of list elements (the `", "` separator
precedes every element but the first). -/
def displayList : List Value → List Nat
  | [] => []
  | [v] => displayValue v
  | v :: v' :: vs => displayValue v ++ 44 :: 32 :: displayList (v' :: vs)

/-- Comma-separated rendering of dict entries as `key: value`. -/
def displayEntries : List (List Nat × Value) → List Nat
  | [] => []
  | [(k, v)] => k ++ 58 :: 32 :: displayValue v
  | (k, v) :: e :: es =>
    (k ++ 58 :: 32 :: displayValue v) ++ 44 :: 32 :: displayEntries (e :: es)

end

/-- The numeric wrapping performed by Rust's `v as i64` on a `u64` operand:
reduce modulo `2 ^ 64` and reinterpret in two's complement. -/
def u64_as_i64 (v : Nat) : Int :=
  if v % 2 ^ 64 < 2 ^ 63 then ((v % 2 ^ 64 : Nat) : Int)
  else ((v % 2 ^ 64 : Nat) : Int) - 2 ^ 64

/-- Conversion `From<u8> for Value` (`Value::Int(v as i64)`); the cast from
`u8` to `i64` never changes the number. -/
def value_from_u8 (v : Nat) : Value := .int v

/-- Conversion `From<u16> for Value` (`Value::Int(v as i64)`). -/
def value_from_u16 (v : Nat) : Value := .int v

/-- Conversion `From<u32> for Value` (`Value::Int(v as i64)`). -/
def value_from_u32 (v : Nat) : Value := .int v

/-- Conversion `From<u64> for Value` (`Value::Int(v as i64)`): the `as`
cast wraps modulo `2 ^ 64` into two's complement. -/
def value_from_u64 (v : Nat) : Value := .int (u64_as_i64 v)

/-- Conversion `From<usize> for Value` (`Value::Int(v as i64)`); on the
64-bit targets modelled here `usize` behaves exactly as `u64`. -/
def value_from_usize (v : Nat) : Value := .int (u64_as_i64 v)

/-- Conversion `From<i8> for Value` (`Value::Int(v as i64)`); sign
extension preserves the number. -/
def value_from_i8 (v : Int) : Value := .int v

/-- Conversion `From<i16> for Value` (`Value::Int(v as i64)`). -/
def value_from_i16 (v : Int) : Value := .int v

/-- Conversion `From<i32> for Value` (`Value::Int(v as i64)`). -/
def value_from_i32 (v : Int) : Value := .int v

/-- Conversion `From<isize> for Value` (`Value::Int(v as i64)`); on 64-bit
targets `isize` coincides with `i64`. -/
def value_from_isize (v : Int) : Value := .int v

/-- Conversion `From<i64> for Value` (`Value::Int(v)`, no cast). -/
def value_from_i64 (v : Int) : Value := .int v

/-- Conversion `From<&[u8]> for Value` (`Value::Text(v.to_owned())`). -/
def value_from_bytes (v : List Nat) : Value := .text v

/-- Conversion `From<&str> for Value`
(`Value::Text(v.as_bytes().to_owned())`): the UTF-8 bytes of the string. -/
def value_from_str (s : List Nat) : Value := .text s

/-- Conversion `From<String> for Value` (`Value::Text(v.into_bytes())`). -/
def value_from_string (s : List Nat) : Value := .text s

/-- Conversion `From<Vec<Value>> for Value` (`Value::List(v)`). -/
def value_from_vec (v : List Value) : Value := .list v

/-- Conversion `From<HashMap<String, Value>> for Value`
(`Value::Dict(BTreeMap::from_iter(v.into_iter()))`): the unordered map's
pairs, in whatever order its iterator yields them, inserted one by one
into a fresh `BTreeMap`. -/
def value_from_hashmap (m : List (List Nat × Value)) : Value :=
  .dict (btreeFromList m)

/-- Conversion `From<BTreeMap<String, Value>> for Value`
(`Value::Dict(v)`). -/
def value_from_btreemap (m : List (List Nat × Value)) : Value := .dict m

/-- The `visit_u64` method of `ValueVisitor` (`Ok(Value::Int(v as i64))`). -/
def visit_u64 (v : Nat) : Value := .int (u64_as_i64 v)

/-- The `visit_i64` method of `ValueVisitor` (`Ok(Value::Int(v))`). -/
def visit_i64 (v : Int) : Value := .int v

/-- The `visit_map` method of `ValueVisitor`: starting from
`BTreeMap::new()`, insert every `(key, value)` pair the map access yields,
in order, and wrap the result in `Value::Dict`.  The pair sequence `es` is
the sequence of entries the deserializer supplies. -/
def visit_map (es : List (List Nat × Value)) : Value :=
  .dict (btreeFromList es)

/-- Smallest value of the 64-bit signed range. -/
def i64Min : Int := -(2 ^ 63)

/-- Largest value of the 64-bit signed range. -/
def i64Max : Int := 2 ^ 63 - 1

mutual

/-- Canonical form of a `Value` as an in-memory datum: every integer fits
the 64-bit signed range (`Int` in the embedding is unbounded, `i64` is
not), every dict's keys are strictly ascending (the `BTreeMap`
representation invariant) and are valid UTF-8 (they come from Rust
`String`s). -/
def wfValue : Value → Bool
  | .int n => decide (i64Min ≤ n) && decide (n ≤ i64Max)
  | .text _ => true
  | .list vs => wfList vs
  | .dict es => keysSorted es && wfEntries es

/-- `wfValue` on every element of a list. -/
def wfList : List Value → Bool
  | [] => true
  | v :: vs => wfValue v && wfList vs

/-- Key validity and `wfValue` on every entry of a dict. -/
def wfEntries : List (List Nat × Value) → Bool
  | [] => true
  | (k, v) :: es => validUtf8 k && wfValue v && wfEntries es

end

mutual

/-- Modelled from the spec: the byte-emitting Encoder (`en.rs`) is not part
of the sources under review; only the `Serialize` impl for `Value` that
drives it is.  Following spec section 4.2, with the traversal order of the
`Serialize` impl in `src/value.rs`: `Int n` emits `i`, the decimal ASCII of
`n`, `e`; `Text s` emits the decimal length, `:`, the raw bytes; `List`
emits `l`, each element in order, `e`; `Dict` emits `d`, each `key` as a
text token followed by its value in the map's (ascending) iteration order,
`e`. -/
def encodeVal : Value → List Nat
  | .int n => 105 :: (intAscii n ++ [101])
  | .text s => natAscii s.length ++ 58 :: s
  | .list vs => 108 :: (encodeList vs ++ [101])
  | .dict es => 100 :: (encodeEntries es ++ [101])

/-- Concatenated encodings of list elements, in list order. -/
def encodeList : List Value → List Nat
  | [] => []
  | v :: vs => encodeVal v ++ encodeList vs

/-- Concatenated encodings of dict entries, each a text token for the key
followed by the encoded value, in entry order. -/
def encodeEntries : List (List Nat × Value) → List Nat
  | [] => []
  | (k, v) :: es => (natAscii k.length ++ 58 :: k) ++ encodeVal v ++ encodeEntries es

end

/-- The decode error taxonomy of spec section 4.4.  Byte offsets, which the
spec attaches for diagnostics, are not modelled; the claims under review
concern only the error kind. -/
inductive DecodeError where
  | unexpectedEnd : DecodeError
  | invalidToken : DecodeError
  | invalidInteger : DecodeError
  | invalidLength : DecodeError
  | invalidUtf8 : DecodeError
  | duplicateKey : DecodeError
  | trailingData : DecodeError
  deriving DecidableEq

/-- Longest prefix of ASCII decimal digits, and the remainder. -/
def takeDigits : List Nat → List Nat × List Nat
  | [] => ([], [])
  | c :: rest =>
    if 48 ≤ c && c ≤ 57 then
      let p := takeDigits rest
      (c :: p.1, p.2)
    else ([], c :: rest)

/-- Numeric value of a big-endian ASCII digit string. -/
def digitsToNat (l : List Nat) : Nat :=
  l.foldl (fun a c => a * 10 + (c - 48)) 0

/-- Whether a digit string has a forbidden leading zero (a `0` first digit
followed by more digits; the single digit `0` is allowed). -/
def leadingZero : List Nat → Bool
  | c :: _ :: _ => c == 48
  | _ => false

/-- Modelled from the spec: the integer production of the recursive-descent
Decoder (`de.rs` is not part of the sources under review).  Input is the
bytes following the `i` tag: an optional `-`, digits, then `e`; leading
zeros, `-0`, an empty digit sequence, and values outside the 64-bit signed
range are `InvalidInteger`; exhausted input is `UnexpectedEnd`. -/
def parseInt (input : List Nat) : Except DecodeError (Value × List Nat) :=
  match input with
  | [] => .error .unexpectedEnd
  | c :: rest0 =>
    let sp : Bool × List Nat :=
      if c = 45 then (true, rest0) else (false, c :: rest0)
    let dp := takeDigits sp.2
    if dp.1.isEmpty then .error .invalidInteger
    else if leadingZero dp.1 then .error .invalidInteger
    else if sp.1 && dp.1 == [48] then .error .invalidInteger
    else
      match dp.2 with
      | [] => .error .unexpectedEnd
      | d :: r2 =>
        if d = 101 then
          let i : Int :=
            if sp.1 then -(digitsToNat dp.1 : Int) else (digitsToNat dp.1 : Int)
          if i < i64Min || i64Max < i then .error .invalidInteger
          else .ok (.int i, r2)
        else .error .invalidInteger

/-- Modelled from the spec: the text production of the Decoder.  Input
starts at the decimal length prefix: digits (no leading zero except a lone
`0`), `:`, then exactly that many raw payload bytes with no UTF-8 check. -/
def parseText (input : List Nat) : Except DecodeError (List Nat × List Nat) :=
  let dp := takeDigits input
  if dp.1.isEmpty then .error .invalidLength
  else if leadingZero dp.1 then .error .invalidLength
  else
    match dp.2 with
    | [] => .error .unexpectedEnd
    | d :: r2 =>
      if d = 58 then
        if r2.length < digitsToNat dp.1 then .error .unexpectedEnd
        else .ok (r2.take (digitsToNat dp.1), r2.drop (digitsToNat dp.1))
      else .error .invalidLength

mutual

/-- Modelled from the spec: one value of the recursive-descent Decoder
grammar (`de.rs` is not part of the sources under review), with explicit
fuel bounding the recursion depth; `decode` supplies fuel exceeding the
input length, which spec section 4.3 guarantees is enough since every
production consumes at least one byte.  One lookahead byte selects the
production: `i` an integer, an ASCII digit a text token, `l` a list, `d` a
dict; any other byte is `InvalidToken`, and exhausted input or fuel is
`UnexpectedEnd`. -/
def parseVal : Nat → List Nat → Except DecodeError (Value × List Nat)
  | 0, _ => .error .unexpectedEnd
  | _ + 1, [] => .error .unexpectedEnd
  | fuel + 1, c :: rest =>
    if c = 105 then parseInt rest
    else if 48 ≤ c && c ≤ 57 then
      match parseText (c :: rest) with
      | .error e => .error e
      | .ok (s, r) => .ok (.text s, r)
    else if c = 108 then
      match parseElems fuel rest with
      | .error e => .error e
      | .ok (vs, r) => .ok (.list vs, r)
    else if c = 100 then
      match parseEntries fuel rest [] with
      | .error e => .error e
      | .ok (es, r) => .ok (.dict es, r)
    else .error .invalidToken

/-- Modelled from the spec: the list production's element loop — parse
values until the next byte is `e`. -/
def parseElems : Nat → List Nat → Except DecodeError (List Value × List Nat)
  | 0, _ => .error .unexpectedEnd
  | _ + 1, [] => .error .unexpectedEnd
  | fuel + 1, c :: rest =>
    if c = 101 then .ok ([], rest)
    else
      match parseVal fuel (c :: rest) with
      | .error e => .error e
      | .ok (v, r1) =>
        match parseElems fuel r1 with
        | .error e => .error e
        | .ok (vs, r2) => .ok (v :: vs, r2)

/-- Modelled from the spec: the dict production's entry loop — parse a text
key then a value until the next byte is `e`, requiring keys to be valid
UTF-8 (`InvalidUtf8`) and fresh (`DuplicateKey`), accumulating entries into
the `BTreeMap` model. -/
def parseEntries : Nat → List Nat → List (List Nat × Value) →
    Except DecodeError (List (List Nat × Value) × List Nat)
  | 0, _, _ => .error .unexpectedEnd
  | _ + 1, [], _ => .error .unexpectedEnd
  | fuel + 1, c :: rest, acc =>
    if c = 101 then .ok (acc, rest)
    else if 48 ≤ c && c ≤ 57 then
      match parseText (c :: rest) with
      | .error e => .error e
      | .ok (k, r1) =>
        if validUtf8 k then
          if (assocLookup acc k).isSome then .error .duplicateKey
          else
            match parseVal fuel r1 with
            | .error e => .error e
            | .ok (v, r2) => parseEntries fuel r2 (btreeInsert acc k v)
        else .error .invalidUtf8
    else .error .invalidToken

end

/-- Modelled from the spec: the decode entry point — parse one value from
the whole input and reject leftover bytes with `TrailingData`. -/
def decode (input : List Nat) : Except DecodeError Value :=
  match parseVal (input.length + 1) input with
  | .error e => .error e
  | .ok (v, []) => .ok v
  | .ok (_, _ :: _) => .error .trailingData

/-- Folding `btreeInsert` over a pair sequence from a given accumulator;
`btreeFromList` is the special case starting from the empty map. -/
def btreeInsertAll (acc : List (List Nat × Value))
    (es : List (List Nat × Value)) : List (List Nat × Value) :=
  es.foldl (fun a p => btreeInsert a p.1 p.2) acc

/-- Whether inserting the pair sequence `es` into the map `acc` ever meets a
key that is already present — the situation in which the dict entry loop of
the Decoder reports `DuplicateKey`. -/
def entDup : List (List Nat × Value) → List (List Nat × Value) → Bool
  | _, [] => false
  | acc, (k, v) :: es =>
    (assocLookup acc k).isSome || entDup (btreeInsert acc k v) es

/-- Lookup of the binding a pair sequence establishes when later pairs
overwrite earlier ones: the value of the last pair carrying the key. -/
def lastAssoc (m : List (List Nat × Value)) (k : List Nat) : Option Value :=
  assocLookup m.reverse k

theorem natAsciiAux_zero (fuel : Nat) : natAsciiAux fuel 0 = [] := by
  cases fuel <;> simp [natAsciiAux]

theorem natAsciiAux_foldl (fuel : Nat) :
    ∀ n a, n ≤ fuel →
      (natAsciiAux fuel n).foldl (fun x c => x * 10 + (c - 48)) a =
        a * 10 ^ (natAsciiAux fuel n).length + n := by
  induction fuel with
  | zero =>
    intro n a hn
    interval_cases n
    simp [natAsciiAux]
  | succ fuel ih =>
    intro n a hn
    by_cases h0 : n = 0
    · subst h0
      simp [natAsciiAux]
    · have hdiv : n / 10 ≤ fuel := by
        have := Nat.div_lt_self (Nat.pos_of_ne_zero h0) (by omega : 1 < 10)
        omega
      rw [natAsciiAux]
      simp only [h0, if_false]
      rw [List.foldl_append, ih (n / 10) a hdiv]
      simp only [List.foldl_cons, List.foldl_nil, List.length_append,
        List.length_cons, List.length_nil]
      have : 48 + n % 10 - 48 = n % 10 := by omega
      rw [this, pow_succ]
      have hmod := Nat.div_add_mod n 10
      ring_nf
      omega

theorem natAsciiAux_digits (fuel : Nat) :
    ∀ n, ∀ c ∈ natAsciiAux fuel n, 48 ≤ c ∧ c ≤ 57 := by
  induction fuel with
  | zero => intro n c hc; simp [natAsciiAux] at hc
  | succ fuel ih =>
    intro n c hc
    by_cases h0 : n = 0
    · subst h0; simp [natAsciiAux] at hc
    · rw [natAsciiAux] at hc
      simp only [h0, if_false, List.mem_append, List.mem_singleton] at hc
      rcases hc with hc | hc
      · exact ih _ c hc
      · have := Nat.mod_lt n (by omega : 0 < 10)
        omega

theorem natAsciiAux_head (fuel : Nat) :
    ∀ n, 0 < n → n ≤ fuel →
      ∃ c cs, natAsciiAux fuel n = c :: cs ∧ 49 ≤ c ∧ c ≤ 57 := by
  induction fuel with
  | zero => intro n h1 h2; omega
  | succ fuel ih =>
    intro n h1 h2
    rw [natAsciiAux]
    simp only [Nat.pos_iff_ne_zero.mp h1, if_false]
    by_cases hsmall : n < 10
    · have : n / 10 = 0 := Nat.div_eq_of_lt hsmall
      rw [this, natAsciiAux_zero]
      refine ⟨48 + n % 10, [], by simp, ?_, ?_⟩ <;>
        · have : n % 10 = n := Nat.mod_eq_of_lt hsmall
          omega
    · have hpos : 0 < n / 10 := Nat.div_pos (by omega) (by omega)
      have hle : n / 10 ≤ fuel := by
        have := Nat.div_lt_self h1 (by omega : 1 < 10)
        omega
      obtain ⟨c, cs, heq, hc1, hc2⟩ := ih (n / 10) hpos hle
      exact ⟨c, cs ++ [48 + n % 10], by rw [heq]; simp, hc1, hc2⟩

theorem digitsToNat_natAscii (n : Nat) : digitsToNat (natAscii n) = n := by
  by_cases h0 : n = 0
  · subst h0; simp [natAscii, digitsToNat]
  · rw [natAscii]
    simp only [h0, if_false]
    rw [digitsToNat, natAsciiAux_foldl n n 0 le_rfl]
    simp

theorem natAscii_digits (n : Nat) : ∀ c ∈ natAscii n, 48 ≤ c ∧ c ≤ 57 := by
  intro c hc
  rw [natAscii] at hc
  by_cases h0 : n = 0
  · simp [h0] at hc
    omega
  · simp only [h0, if_false] at hc
    exact natAsciiAux_digits n n c hc

theorem natAscii_cons (n : Nat) :
    ∃ c cs, natAscii n = c :: cs ∧ 48 ≤ c ∧ c ≤ 57 ∧ (n ≠ 0 → 49 ≤ c) := by
  by_cases h0 : n = 0
  · refine ⟨48, [], ?_, by omega, by omega, fun h => absurd h0 h⟩
    simp [natAscii, h0]
  · obtain ⟨c, cs, heq, h1, h2⟩ :=
      natAsciiAux_head n n (Nat.pos_of_ne_zero h0) le_rfl
    refine ⟨c, cs, ?_, by omega, h2, fun _ => h1⟩
    rw [natAscii]
    simp [h0, heq]

theorem leadingZero_natAscii (n : Nat) : leadingZero (natAscii n) = false := by
  obtain ⟨c, cs, heq, h48, h57, h49⟩ := natAscii_cons n
  rw [heq]
  cases cs with
  | nil => rfl
  | cons c2 cs' =>
    have hne : c ≠ 48 := by
      by_cases h0 : n = 0
      · subst h0
        have h1 : natAscii 0 = [48] := by simp [natAscii]
        rw [h1] at heq
        simp at heq
      · have := h49 h0
        omega
    simp [leadingZero, hne]

theorem natAscii_eq_zero_iff (n : Nat) : natAscii n = [48] ↔ n = 0 := by
  constructor
  · intro h
    have := digitsToNat_natAscii n
    rw [h] at this
    simpa [digitsToNat] using this.symm
  · intro h; simp [h, natAscii]

theorem takeDigits_append (l r : List Nat)
    (hl : ∀ c ∈ l, 48 ≤ c ∧ c ≤ 57)
    (hr : ∀ c, r.head? = some c → ¬(48 ≤ c ∧ c ≤ 57)) :
    takeDigits (l ++ r) = (l, r) := by
  induction l with
  | nil =>
    cases r with
    | nil => simp [takeDigits]
    | cons c r' =>
      have := hr c (by simp)
      simp only [List.nil_append, takeDigits]
      have hcond : ¬(48 ≤ c && c ≤ 57) = true := by
        simp only [Bool.and_eq_true, decide_eq_true_eq]
        omega
      simp [hcond]
  | cons c l' ih =>
    have hc := hl c (by simp)
    have hcond : (48 ≤ c && c ≤ 57) = true := by
      simp only [Bool.and_eq_true, decide_eq_true_eq]
      omega
    simp only [List.cons_append, takeDigits, hcond, if_true]
    show (c :: (takeDigits (l' ++ r)).1, (takeDigits (l' ++ r)).2) = (c :: l', r)
    rw [ih (fun x hx => hl x (by simp [hx]))]

theorem natAscii_isEmpty (n : Nat) : (natAscii n).isEmpty = false := by
  obtain ⟨c, cs, heq, _, _, _⟩ := natAscii_cons n
  simp [heq]

theorem parseText_encode (s rest : List Nat) :
    parseText (natAscii s.length ++ 58 :: (s ++ rest)) = .ok (s, rest) := by
  rw [parseText]
  rw [takeDigits_append _ _ (natAscii_digits _)
    (by intro c hc; simp at hc; omega)]
  have hlen : ¬ (s ++ rest).length < s.length := by simp
  simp only [natAscii_isEmpty s.length, leadingZero_natAscii s.length,
    Bool.false_eq_true, if_false, if_pos rfl, if_true, hlen,
    digitsToNat_natAscii, List.take_left, List.drop_left]

theorem parseInt_encode (i : Int) (rest : List Nat)
    (h1 : i64Min ≤ i) (h2 : i ≤ i64Max) :
    parseInt (intAscii i ++ 101 :: rest) = .ok (.int i, rest) := by
  by_cases hneg : i < 0
  · have habs : 0 < i.natAbs := by omega
    rw [intAscii]
    simp only [hneg, if_true, List.cons_append]
    rw [parseInt]
    have hta : takeDigits (natAscii i.natAbs ++ 101 :: rest) =
        (natAscii i.natAbs, 101 :: rest) :=
      takeDigits_append _ _ (natAscii_digits _)
        (by intro c hc; simp at hc; omega)
    have hne : ¬ natAscii i.natAbs = [48] := by
      rw [natAscii_eq_zero_iff]
      omega
    have hbeq : (natAscii i.natAbs == [48]) = false := by
      simpa using hne
    have hr1 : ¬ (-(digitsToNat (natAscii i.natAbs) : Int) < i64Min) := by
      rw [digitsToNat_natAscii]
      omega
    have hr2 : ¬ (i64Max < -(digitsToNat (natAscii i.natAbs) : Int)) := by
      rw [digitsToNat_natAscii]
      omega
    have hval : -(digitsToNat (natAscii i.natAbs) : Int) = i := by
      rw [digitsToNat_natAscii]
      omega
    have hcond : (decide (i < i64Min) || decide (i64Max < i)) = false := by
      simp only [Bool.or_eq_false_iff, decide_eq_false_iff_not]
      constructor <;> omega
    simp only [if_pos rfl, if_true, eq_self_iff_true, hta, natAscii_isEmpty,
      leadingZero_natAscii, Bool.false_eq_true, if_false, Bool.true_and,
      hbeq, hval, hcond]
  · have hnn : 0 ≤ i := by omega
    rw [intAscii]
    simp only [hneg, if_false]
    obtain ⟨c, cs, heq, hc48, hc57, _⟩ := natAscii_cons i.toNat
    have hinput : natAscii i.toNat ++ 101 :: rest = c :: (cs ++ 101 :: rest) := by
      rw [heq]
      simp
    rw [hinput, parseInt]
    have hta : takeDigits (c :: (cs ++ 101 :: rest)) = (c :: cs, 101 :: rest) := by
      have := takeDigits_append (natAscii i.toNat) (101 :: rest)
        (natAscii_digits _) (by intro x hx; simp at hx; omega)
      rw [heq] at this
      simpa using this
    have hc45 : ¬ c = 45 := by omega
    have hie : (c :: cs : List Nat).isEmpty = false := by simp
    have hlz : leadingZero (c :: cs) = false := by
      have := leadingZero_natAscii i.toNat
      rw [heq] at this
      exact this
    have hd : (digitsToNat (c :: cs) : Int) = i := by
      have := digitsToNat_natAscii i.toNat
      rw [heq] at this
      rw [this]
      omega
    have hr1 : ¬ ((digitsToNat (c :: cs) : Int) < i64Min) := by
      rw [hd]
      omega
    have hr2 : ¬ (i64Max < (digitsToNat (c :: cs) : Int)) := by
      rw [hd]
      omega
    have hcond : (decide (i < i64Min) || decide (i64Max < i)) = false := by
      simp only [Bool.or_eq_false_iff, decide_eq_false_iff_not]
      constructor <;> omega
    simp only [hc45, if_false, if_true, eq_self_iff_true, hta, hie, hlz,
      Bool.false_eq_true, Bool.false_and, if_pos rfl, hd, hcond]

theorem assocLookup_btreeInsert (d : List (List Nat × Value))
    (k : List Nat) (v : Value) (x : List Nat) :
    assocLookup (btreeInsert d k v) x =
      if x = k then some v else assocLookup d x := by
  induction d with
  | nil =>
    by_cases hx : x = k
    · simp [btreeInsert, assocLookup, hx]
    · have hkx : ¬ k = x := fun h => hx h.symm
      simp [btreeInsert, assocLookup, hx, hkx]
  | cons p rest ih =>
    obtain ⟨k1, v1⟩ := p
    rw [btreeInsert]
    rcases hcmp : byteListCmp k k1 with _ | _ | _
    · by_cases hx : x = k
      · subst hx
        simp [assocLookup]
      · have hkx : ¬ k = x := fun h => hx h.symm
        simp only [assocLookup, if_neg hkx, if_neg hx]
    · have hk : k = k1 := (byteListCmp_eq_iff k k1).mp hcmp
      subst hk
      by_cases hx : x = k
      · subst hx
        simp [assocLookup]
      · have hkx : ¬ k = x := fun h => hx h.symm
        simp only [assocLookup, if_neg hkx, if_neg hx]
    · have hne : k ≠ k1 := by
        intro h
        rw [h, byteListCmp_self] at hcmp
        exact Ordering.noConfusion hcmp
      simp only [assocLookup, ih]
      by_cases h1 : k1 = x
      · have hxk : ¬ x = k := by
          rw [← h1]
          exact fun h => hne h.symm
        simp [h1, hxk]
      · simp [h1]

theorem btreeInsert_keys_subset (d : List (List Nat × Value))
    (k : List Nat) (v : Value) :
    ∀ x ∈ (btreeInsert d k v).map Prod.fst, x = k ∨ x ∈ d.map Prod.fst := by
  induction d with
  | nil => simp [btreeInsert]
  | cons p rest ih =>
    obtain ⟨k1, v1⟩ := p
    rw [btreeInsert]
    rcases hcmp : byteListCmp k k1 with _ | _ | _
    · intro x hx
      simp at hx ⊢
      tauto
    · intro x hx
      simp at hx ⊢
      tauto
    · intro x hx
      simp at hx ⊢
      rcases hx with hx | hx
      · tauto
      · rcases ih x (by simpa using hx) with h | h
        · tauto
        · simp at h
          tauto

theorem keysSorted_iff_pairwise (d : List (List Nat × Value)) :
    keysSorted d = true ↔
      List.Pairwise (fun a b => byteListCmp a b = .lt) (d.map Prod.fst) := by
  induction d with
  | nil => simp [keysSorted]
  | cons p t ih =>
    obtain ⟨k1, v1⟩ := p
    cases t with
    | nil => simp [keysSorted]
    | cons q rest =>
      obtain ⟨k2, v2⟩ := q
      rw [keysSorted]
      rcases hcmp : byteListCmp k1 k2 with _ | _ | _
      · constructor
        · intro hs
          have hp := ih.mp hs
          rw [List.map_cons, List.pairwise_cons]
          refine ⟨?_, hp⟩
          intro b hb
          rw [List.map_cons, List.mem_cons] at hb
          rcases hb with hb | hb
          · rw [hb]; exact hcmp
          · rw [List.map_cons, List.pairwise_cons] at hp
            exact byteListCmp_lt_trans hcmp (hp.1 b hb)
        · intro hpw
          rw [List.map_cons, List.pairwise_cons] at hpw
          exact ih.mpr hpw.2
      · constructor
        · intro hs
          exact absurd hs (by simp)
        · intro hpw
          rw [List.map_cons, List.pairwise_cons] at hpw
          have := hpw.1 k2 (by simp)
          rw [hcmp] at this
          exact Ordering.noConfusion this
      · constructor
        · intro hs
          exact absurd hs (by simp)
        · intro hpw
          rw [List.map_cons, List.pairwise_cons] at hpw
          have := hpw.1 k2 (by simp)
          rw [hcmp] at this
          exact Ordering.noConfusion this

theorem btreeInsert_pairwise (d : List (List Nat × Value))
    (k : List Nat) (v : Value)
    (h : List.Pairwise (fun a b => byteListCmp a b = .lt) (d.map Prod.fst)) :
    List.Pairwise (fun a b => byteListCmp a b = .lt)
      ((btreeInsert d k v).map Prod.fst) := by
  induction d with
  | nil => simp [btreeInsert]
  | cons p rest ih =>
    obtain ⟨k1, v1⟩ := p
    simp only [List.map_cons, List.pairwise_cons] at h
    obtain ⟨h1, h2⟩ := h
    rw [btreeInsert]
    rcases hcmp : byteListCmp k k1 with _ | _ | _
    · simp only [List.map_cons, List.pairwise_cons]
      refine ⟨?_, ?_⟩
      · intro b hb
        rw [List.mem_cons] at hb
        rcases hb with hb | hb
        · rw [hb]; exact hcmp
        · exact byteListCmp_lt_trans hcmp (h1 b hb)
      · exact ⟨h1, h2⟩
    · have hk : k = k1 := (byteListCmp_eq_iff k k1).mp hcmp
      subst hk
      simp only [List.map_cons, List.pairwise_cons]
      exact ⟨h1, h2⟩
    · simp only [List.map_cons, List.pairwise_cons]
      refine ⟨?_, ih h2⟩
      intro b hb
      rcases btreeInsert_keys_subset rest k v b hb with hb' | hb'
      · rw [hb']
        exact (byteListCmp_gt_iff k k1).mp hcmp
      · exact h1 b hb'

theorem keysSorted_btreeInsert (d : List (List Nat × Value))
    (k : List Nat) (v : Value) (h : keysSorted d = true) :
    keysSorted (btreeInsert d k v) = true :=
  (keysSorted_iff_pairwise _).mpr
    (btreeInsert_pairwise d k v ((keysSorted_iff_pairwise d).mp h))

theorem keysSorted_btreeInsertAll (acc : List (List Nat × Value))
    (es : List (List Nat × Value)) (h : keysSorted acc = true) :
    keysSorted (btreeInsertAll acc es) = true := by
  induction es generalizing acc with
  | nil => exact h
  | cons p rest ih =>
    rw [btreeInsertAll, List.foldl_cons]
    exact ih _ (keysSorted_btreeInsert acc p.1 p.2 h)

theorem keysSorted_btreeFromList (l : List (List Nat × Value)) :
    keysSorted (btreeFromList l) = true :=
  keysSorted_btreeInsertAll [] l rfl

theorem btreeInsert_greatest (d : List (List Nat × Value))
    (k : List Nat) (v : Value)
    (h : ∀ x ∈ d.map Prod.fst, byteListCmp x k = .lt) :
    btreeInsert d k v = d ++ [(k, v)] := by
  induction d with
  | nil => simp [btreeInsert]
  | cons p rest ih =>
    obtain ⟨k1, v1⟩ := p
    have h1 : byteListCmp k1 k = .lt := h k1 (by simp)
    have hgt : byteListCmp k k1 = .gt := (byteListCmp_gt_iff k k1).mpr h1
    rw [btreeInsert, hgt]
    simp only [List.cons_append, List.cons.injEq, true_and]
    exact ih (fun x hx => h x (by simp [hx]))

theorem assocLookup_none_of_greatest (d : List (List Nat × Value))
    (k : List Nat) (h : ∀ x ∈ d.map Prod.fst, byteListCmp x k = .lt) :
    assocLookup d k = none := by
  induction d with
  | nil => rfl
  | cons p rest ih =>
    obtain ⟨k1, v1⟩ := p
    have h1 : byteListCmp k1 k = .lt := h k1 (by simp)
    have hne : k1 ≠ k := byteListCmp_lt_ne h1
    rw [assocLookup, if_neg hne]
    exact ih (fun x hx => h x (by simp [hx]))

theorem assocLookup_none_of_not_mem (d : List (List Nat × Value))
    (k : List Nat) (h : k ∉ d.map Prod.fst) : assocLookup d k = none := by
  induction d with
  | nil => rfl
  | cons p rest ih =>
    obtain ⟨k1, v1⟩ := p
    simp only [List.map_cons, List.mem_cons, not_or] at h
    rw [assocLookup, if_neg (fun he => h.1 he.symm)]
    exact ih h.2

theorem keysSorted_cons (k : List Nat) (v : Value)
    (es : List (List Nat × Value)) (h : keysSorted ((k, v) :: es) = true) :
    keysSorted es = true ∧ ∀ e ∈ es.map Prod.fst, byteListCmp k e = .lt := by
  have hp := (keysSorted_iff_pairwise _).mp h
  rw [List.map_cons, List.pairwise_cons] at hp
  exact ⟨(keysSorted_iff_pairwise es).mpr hp.2, hp.1⟩

theorem entries_sorted_insertAll (es : List (List Nat × Value)) :
    ∀ acc, keysSorted es = true →
      (∀ a ∈ acc.map Prod.fst, ∀ e ∈ es.map Prod.fst, byteListCmp a e = .lt) →
      entDup acc es = false ∧ btreeInsertAll acc es = acc ++ es := by
  induction es with
  | nil =>
    intro acc _ _
    exact ⟨rfl, by simp [btreeInsertAll]⟩
  | cons p rest ih =>
    intro acc hs hgt
    obtain ⟨k, v⟩ := p
    obtain ⟨hs', hklt⟩ := keysSorted_cons k v rest hs
    have hacck : ∀ a ∈ acc.map Prod.fst, byteListCmp a k = .lt := by
      intro a ha
      exact hgt a ha k (by simp)
    have hlook : assocLookup acc k = none :=
      assocLookup_none_of_greatest acc k hacck
    have hins : btreeInsert acc k v = acc ++ [(k, v)] :=
      btreeInsert_greatest acc k v hacck
    have hgt' : ∀ a ∈ (acc ++ [(k, v)]).map Prod.fst,
        ∀ e ∈ rest.map Prod.fst, byteListCmp a e = .lt := by
      intro a ha e he
      rw [List.map_append, List.mem_append] at ha
      rcases ha with ha | ha
      · exact hgt a ha e (by simp [he])
      · simp at ha
        rw [ha]
        exact hklt e he
    obtain ⟨hd, hall⟩ := ih (acc ++ [(k, v)]) hs' hgt'
    refine ⟨?_, ?_⟩
    · rw [entDup, hlook, hins]
      simpa using hd
    · rw [btreeInsertAll, List.foldl_cons]
      show btreeInsertAll (btreeInsert acc k v) rest = acc ++ (k, v) :: rest
      rw [hins, hall]
      simp


theorem entDup_of_dup (es : List (List Nat × Value)) :
    ∀ acc, ((∃ x ∈ es.map Prod.fst, (assocLookup acc x).isSome = true) ∨
      ¬ (es.map Prod.fst).Nodup) → entDup acc es = true := by
  induction es with
  | nil =>
    intro acc h
    rcases h with ⟨x, hx, _⟩ | h
    · simp at hx
    · simp at h
  | cons p rest ih =>
    intro acc h
    obtain ⟨k, v⟩ := p
    rw [entDup, Bool.or_eq_true]
    rcases h with ⟨x, hx, hsome⟩ | hnd
    · rw [List.map_cons, List.mem_cons] at hx
      rcases hx with hx | hx
      · subst hx
        exact Or.inl hsome
      · refine Or.inr (ih _ (Or.inl ⟨x, hx, ?_⟩))
        rw [assocLookup_btreeInsert]
        by_cases hxk : x = k
        · simp [hxk]
        · simpa [hxk] using hsome
    · rw [List.map_cons, List.nodup_cons, not_and_or] at hnd
      rcases hnd with hmem | hnd
      · rw [not_not] at hmem
        refine Or.inr (ih _ (Or.inl ⟨k, hmem, ?_⟩))
        rw [assocLookup_btreeInsert]
        simp
      · exact Or.inr (ih _ (Or.inr hnd))

theorem assocLookup_append (l1 l2 : List (List Nat × Value)) (k : List Nat) :
    assocLookup (l1 ++ l2) k = (assocLookup l1 k).or (assocLookup l2 k) := by
  induction l1 with
  | nil => simp [assocLookup, Option.none_or]
  | cons p rest ih =>
    obtain ⟨k1, v1⟩ := p
    rw [List.cons_append, assocLookup, assocLookup]
    by_cases h : k1 = k
    · simp [h]
    · simp [h, ih]

theorem lastAssoc_cons (k0 : List Nat) (v0 : Value)
    (m : List (List Nat × Value)) (x : List Nat) :
    lastAssoc ((k0, v0) :: m) x =
      (lastAssoc m x).or (if k0 = x then some v0 else none) := by
  rw [lastAssoc, lastAssoc, List.reverse_cons, assocLookup_append]
  rfl

theorem assocLookup_btreeInsertAll (m : List (List Nat × Value)) :
    ∀ acc x, assocLookup (btreeInsertAll acc m) x =
      (lastAssoc m x).or (assocLookup acc x) := by
  induction m with
  | nil =>
    intro acc x
    rw [btreeInsertAll]
    simp [lastAssoc, assocLookup, Option.none_or]
  | cons p rest ih =>
    intro acc x
    obtain ⟨k0, v0⟩ := p
    rw [btreeInsertAll, List.foldl_cons]
    show assocLookup (btreeInsertAll (btreeInsert acc k0 v0) rest) x =
      (lastAssoc ((k0, v0) :: rest) x).or (assocLookup acc x)
    rw [ih, lastAssoc_cons, Option.or_assoc, assocLookup_btreeInsert]
    by_cases hx : x = k0
    · subst hx
      simp
    · have h0 : ¬ k0 = x := fun h => hx h.symm
      simp [hx, h0, Option.none_or]

theorem assocLookup_btreeFromList (m : List (List Nat × Value)) (x : List Nat) :
    assocLookup (btreeFromList m) x = lastAssoc m x := by
  have h : btreeFromList m = btreeInsertAll [] m := rfl
  rw [h, assocLookup_btreeInsertAll]
  simp [assocLookup, Option.or_none]

theorem lastAssoc_eq_of_nodup (m : List (List Nat × Value))
    (h : (m.map Prod.fst).Nodup) :
    ∀ x, lastAssoc m x = assocLookup m x := by
  induction m with
  | nil => intro x; rfl
  | cons p rest ih =>
    intro x
    obtain ⟨k0, v0⟩ := p
    rw [List.map_cons, List.nodup_cons] at h
    rw [lastAssoc_cons, assocLookup]
    by_cases hx : k0 = x
    · subst hx
      have hnone : assocLookup rest k0 = none :=
        assocLookup_none_of_not_mem rest k0 h.1
      rw [ih h.2, hnone]
      simp
    · rw [ih h.2]
      simp [hx, Option.or_none]

theorem encodeVal_cons (v : Value) :
    ∃ c cs, encodeVal v = c :: cs ∧ c ≠ 101 ∧
      (c = 105 ∨ (48 ≤ c ∧ c ≤ 57) ∨ c = 108 ∨ c = 100) := by
  cases v with
  | int n => exact ⟨105, _, by rw [encodeVal], by omega, by omega⟩
  | text s =>
    obtain ⟨c, cs, heq, h48, h57, _⟩ := natAscii_cons s.length
    refine ⟨c, cs ++ 58 :: s, ?_, by omega, by omega⟩
    rw [encodeVal, heq]
    simp
  | list vs => exact ⟨108, _, by rw [encodeVal], by omega, by omega⟩
  | dict es => exact ⟨100, _, by rw [encodeVal], by omega, by omega⟩

theorem encodeVal_length (v : Value) : 2 ≤ (encodeVal v).length := by
  cases v with
  | int n =>
    rw [encodeVal]
    simp
  | text s =>
    obtain ⟨c, cs, heq, _, _, _⟩ := natAscii_cons s.length
    rw [encodeVal, heq]
    simp
    omega
  | list vs =>
    rw [encodeVal]
    simp
  | dict es =>
    rw [encodeVal]
    simp

theorem parse_encode_main : ∀ n : Nat,
    (∀ v rest, wfValue v = true → (encodeVal v).length + 1 ≤ n →
      parseVal n (encodeVal v ++ rest) = .ok (v, rest)) ∧
    (∀ vs rest, wfList vs = true → (encodeList vs).length + 2 ≤ n →
      parseElems n (encodeList vs ++ 101 :: rest) = .ok (vs, rest)) ∧
    (∀ es acc rest, wfEntries es = true → (encodeEntries es).length + 2 ≤ n →
      parseEntries n (encodeEntries es ++ 101 :: rest) acc =
        (if entDup acc es then .error .duplicateKey
         else .ok (btreeInsertAll acc es, rest))) := by
  intro n
  induction n with
  | zero =>
    refine ⟨?_, ?_, ?_⟩
    · intro v rest _ hfuel
      omega
    · intro vs rest _ hfuel
      omega
    · intro es acc rest _ hfuel
      omega
  | succ n ih =>
    obtain ⟨ihP, ihR, ihQ⟩ := ih
    refine ⟨?_, ?_, ?_⟩
    · intro v rest hwf hfuel
      cases v with
      | int i =>
        have hrange : i64Min ≤ i ∧ i ≤ i64Max := by
          rw [wfValue] at hwf
          simpa using hwf
        have hinput : encodeVal (.int i) ++ rest =
            105 :: (intAscii i ++ 101 :: rest) := by
          rw [encodeVal]
          simp
        rw [hinput, parseVal, if_pos rfl]
        exact parseInt_encode i rest hrange.1 hrange.2
      | text s =>
        obtain ⟨c, cs, heq, h48, h57, _⟩ := natAscii_cons s.length
        have hinput : encodeVal (.text s) ++ rest =
            c :: (cs ++ 58 :: (s ++ rest)) := by
          rw [encodeVal, heq]
          simp
        rw [hinput, parseVal]
        have hc105 : ¬ c = 105 := by omega
        have hdig : (decide (48 ≤ c) && decide (c ≤ 57)) = true := by
          simp only [Bool.and_eq_true, decide_eq_true_eq]
          omega
        rw [if_neg hc105, if_pos hdig]
        have hback : c :: (cs ++ 58 :: (s ++ rest)) =
            natAscii s.length ++ 58 :: (s ++ rest) := by
          rw [heq]
          simp
        rw [hback, parseText_encode]
      | list vs =>
        have hwf' : wfList vs = true := by rw [wfValue] at hwf; exact hwf
        have hinput : encodeVal (.list vs) ++ rest =
            108 :: (encodeList vs ++ 101 :: rest) := by
          rw [encodeVal]
          simp
        have hlen : (encodeVal (.list vs)).length = (encodeList vs).length + 2 := by
          rw [encodeVal]
          simp
        rw [hinput, parseVal]
        rw [if_neg (by omega : ¬ (108 : Nat) = 105)]
        rw [if_neg (by simp : ¬ (decide (48 ≤ (108 : Nat)) && decide ((108 : Nat) ≤ 57)) = true)]
        rw [if_pos rfl]
        rw [ihR vs rest hwf' (by omega)]
      | dict es =>
        have hwf' : keysSorted es = true ∧ wfEntries es = true := by
          rw [wfValue] at hwf
          simpa using hwf
        obtain ⟨hnd, hall⟩ := entries_sorted_insertAll es [] hwf'.1
          (by intro a ha; simp at ha)
        have hinput : encodeVal (.dict es) ++ rest =
            100 :: (encodeEntries es ++ 101 :: rest) := by
          rw [encodeVal]
          simp
        have hlen : (encodeVal (.dict es)).length = (encodeEntries es).length + 2 := by
          rw [encodeVal]
          simp
        rw [hinput, parseVal]
        rw [if_neg (by omega : ¬ (100 : Nat) = 105)]
        rw [if_neg (by simp : ¬ (decide (48 ≤ (100 : Nat)) && decide ((100 : Nat) ≤ 57)) = true)]
        rw [if_neg (by omega : ¬ (100 : Nat) = 108)]
        rw [if_pos rfl]
        rw [ihQ es [] rest hwf'.2 (by omega)]
        rw [hnd]
        simp only [Bool.false_eq_true, if_false]
        have : btreeInsertAll [] es = es := by simpa using hall
        rw [this]
    · intro vs rest hwf hfuel
      cases vs with
      | nil =>
        have hinput : encodeList [] ++ 101 :: rest = 101 :: rest := by
          rw [encodeList]
          simp
        rw [hinput, parseElems, if_pos rfl]
      | cons v vs' =>
        have hwfv : wfValue v = true ∧ wfList vs' = true := by
          rw [wfList] at hwf
          simpa using hwf
        obtain ⟨c, cs, hv, hne, _⟩ := encodeVal_cons v
        have hinput : encodeList (v :: vs') ++ 101 :: rest =
            c :: (cs ++ (encodeList vs' ++ 101 :: rest)) := by
          rw [encodeList, hv]
          simp
        rw [hinput, parseElems, if_neg hne]
        have hback : c :: (cs ++ (encodeList vs' ++ 101 :: rest)) =
            encodeVal v ++ (encodeList vs' ++ 101 :: rest) := by
          rw [hv]
          simp
        have h2 : 2 ≤ (encodeVal v).length := encodeVal_length v
        have hlenc : (encodeList (v :: vs')).length =
            (encodeVal v).length + (encodeList vs').length := by
          rw [encodeList]
          simp
        rw [hback]
        simp only [ihP v _ hwfv.1 (by omega), ihR vs' rest hwfv.2 (by omega)]
    · intro es acc rest hwf hfuel
      cases es with
      | nil =>
        have hinput : encodeEntries [] ++ 101 :: rest = 101 :: rest := by
          rw [encodeEntries]
          simp
        rw [hinput, parseEntries, if_pos rfl]
        simp [entDup, btreeInsertAll]
      | cons p es' =>
        obtain ⟨k, v⟩ := p
        have hx : validUtf8 k = true ∧ wfValue v = true ∧ wfEntries es' = true := by
          rw [wfEntries] at hwf
          simp only [Bool.and_eq_true] at hwf
          exact ⟨hwf.1.1, hwf.1.2, hwf.2⟩
        obtain ⟨c, cs, hk, h48, h57, _⟩ := natAscii_cons k.length
        have hinput : encodeEntries ((k, v) :: es') ++ 101 :: rest =
            c :: (cs ++ 58 :: (k ++ (encodeVal v ++ (encodeEntries es' ++ 101 :: rest)))) := by
          rw [encodeEntries, hk]
          simp
        rw [hinput, parseEntries]
        rw [if_neg (by omega : ¬ c = 101)]
        rw [if_pos (show (decide (48 ≤ c) && decide (c ≤ 57)) = true by
          simp only [Bool.and_eq_true, decide_eq_true_eq]; omega)]
        have hback : c :: (cs ++ 58 :: (k ++ (encodeVal v ++ (encodeEntries es' ++ 101 :: rest)))) =
            natAscii k.length ++ 58 :: (k ++ (encodeVal v ++ (encodeEntries es' ++ 101 :: rest))) := by
          rw [hk]
          simp
        rw [hback, parseText_encode]
        have hlenk : 1 ≤ (natAscii k.length).length := by
          rw [hk]
          simp
        have h2 : 2 ≤ (encodeVal v).length := encodeVal_length v
        have hlene : (encodeEntries ((k, v) :: es')).length =
            (natAscii k.length).length + 1 + k.length + (encodeVal v).length +
              (encodeEntries es').length := by
          rw [encodeEntries]
          simp
          omega
        simp only [hx.1, if_true]
        by_cases hdup : (assocLookup acc k).isSome = true
        · rw [if_pos hdup, entDup, hdup]
          simp
        · rw [if_neg hdup]
          simp only [ihP v _ hx.2.1 (by omega),
            ihQ es' (btreeInsert acc k v) rest hx.2.2 (by omega)]
          rw [entDup]
          have hfalse : (assocLookup acc k).isSome = false := by
            simpa using hdup
          rw [hfalse]
          simp only [Bool.false_or]
          have : btreeInsertAll acc ((k, v) :: es') =
              btreeInsertAll (btreeInsert acc k v) es' := by
            rw [btreeInsertAll, List.foldl_cons]
            rfl
          rw [this]

theorem utf8Lossy_spec : ∀ (n : Nat) (l : List Nat), l.length ≤ n →
    (validUtf8 l = true → utf8Lossy l = l) ∧
    (validUtf8 l = false → replacementBytes <:+: utf8Lossy l) := by
  intro n
  induction n with
  | zero =>
    intro l hl
    have : l = [] := List.length_eq_zero.mp (by omega)
    subst this
    refine ⟨fun _ => by simp [utf8Lossy], fun hv => ?_⟩
    simp [validUtf8] at hv
  | succ n ih =>
    intro l hl
    cases l with
    | nil =>
      refine ⟨fun _ => by simp [utf8Lossy], fun hv => ?_⟩
      simp [validUtf8] at hv
    | cons b rest =>
      rw [List.length_cons] at hl
      rw [validUtf8.eq_def, utf8Lossy.eq_def]
      by_cases h1 : b ≤ 127
      · simp only [if_pos h1]
        have hrest := ih rest (by omega)
        refine ⟨fun hv => by rw [hrest.1 hv], fun hv => ?_⟩
        obtain ⟨s, t, hst⟩ := hrest.2 hv
        exact ⟨b :: s, t, by simp [hst]⟩
      · simp only [if_neg h1]
        by_cases h2 : b < 194
        · simp only [if_pos h2]
          exact ⟨fun hv => absurd hv (by simp),
            fun _ => ⟨[], utf8Lossy rest, by simp⟩⟩
        · simp only [if_neg h2]
          by_cases h3 : b ≤ 223
          · simp only [if_pos h3]
            cases rest with
            | nil =>
              exact ⟨fun hv => absurd hv (by simp), fun _ => List.infix_rfl⟩
            | cons b1 r1 =>
              have hr1 := ih r1 (by simp at hl; omega)
              by_cases hc : (decide (128 ≤ b1) && decide (b1 ≤ 191)) = true
              · simp only [if_pos hc]
                refine ⟨fun hv => by rw [hr1.1 hv], fun hv => ?_⟩
                obtain ⟨s, t, hst⟩ := hr1.2 hv
                exact ⟨b :: b1 :: s, t, by simp [hst]⟩
              · simp only [if_neg hc]
                exact ⟨fun hv => absurd hv (by simp),
                  fun _ => ⟨[], utf8Lossy (b1 :: r1), by simp⟩⟩
          · simp only [if_neg h3]
            by_cases h4 : b ≤ 239
            · simp only [if_pos h4]
              cases rest with
              | nil =>
                exact ⟨fun hv => absurd hv (by simp), fun _ => List.infix_rfl⟩
              | cons b1 r1 =>
                by_cases hc1 :
                    (if b = 224 then decide (160 ≤ b1) && decide (b1 ≤ 191)
                     else if b = 237 then decide (128 ≤ b1) && decide (b1 ≤ 159)
                     else decide (128 ≤ b1) && decide (b1 ≤ 191)) = true
                · simp only [if_pos hc1]
                  cases r1 with
                  | nil =>
                    exact ⟨fun hv => absurd hv (by simp), fun _ => List.infix_rfl⟩
                  | cons b2 r2 =>
                    have hr2 := ih r2 (by simp at hl; omega)
                    by_cases hc2 : (decide (128 ≤ b2) && decide (b2 ≤ 191)) = true
                    · simp only [if_pos hc2]
                      refine ⟨fun hv => by rw [hr2.1 hv], fun hv => ?_⟩
                      obtain ⟨s, t, hst⟩ := hr2.2 hv
                      exact ⟨b :: b1 :: b2 :: s, t, by simp [hst]⟩
                    · simp only [if_neg hc2]
                      exact ⟨fun hv => absurd hv (by simp),
                        fun _ => ⟨[], utf8Lossy (b2 :: r2), by simp⟩⟩
                · simp only [if_neg hc1]
                  exact ⟨fun hv => absurd hv (by simp),
                    fun _ => ⟨[], utf8Lossy (b1 :: r1), by simp⟩⟩
            · simp only [if_neg h4]
              by_cases h5 : b ≤ 244
              · simp only [if_pos h5]
                cases rest with
                | nil =>
                  exact ⟨fun hv => absurd hv (by simp), fun _ => List.infix_rfl⟩
                | cons b1 r1 =>
                  by_cases hc1 :
                      (if b = 240 then decide (144 ≤ b1) && decide (b1 ≤ 191)
                       else if b = 244 then decide (128 ≤ b1) && decide (b1 ≤ 143)
                       else decide (128 ≤ b1) && decide (b1 ≤ 191)) = true
                  · simp only [if_pos hc1]
                    cases r1 with
                    | nil =>
                      exact ⟨fun hv => absurd hv (by simp), fun _ => List.infix_rfl⟩
                    | cons b2 r2 =>
                      by_cases hc2 : (decide (128 ≤ b2) && decide (b2 ≤ 191)) = true
                      · simp only [if_pos hc2]
                        cases r2 with
                        | nil =>
                          exact ⟨fun hv => absurd hv (by simp),
                            fun _ => List.infix_rfl⟩
                        | cons b3 r3 =>
                          have hr3 := ih r3 (by simp at hl; omega)
                          by_cases hc3 :
                              (decide (128 ≤ b3) && decide (b3 ≤ 191)) = true
                          · simp only [if_pos hc3]
                            refine ⟨fun hv => by rw [hr3.1 hv], fun hv => ?_⟩
                            obtain ⟨s, t, hst⟩ := hr3.2 hv
                            exact ⟨b :: b1 :: b2 :: b3 :: s, t, by simp [hst]⟩
                          · simp only [if_neg hc3]
                            exact ⟨fun hv => absurd hv (by simp),
                              fun _ => ⟨[], utf8Lossy (b3 :: r3), by simp⟩⟩
                      · simp only [if_neg hc2]
                        exact ⟨fun hv => absurd hv (by simp),
                          fun _ => ⟨[], utf8Lossy (b2 :: r2), by simp⟩⟩
                  · simp only [if_neg hc1]
                    exact ⟨fun hv => absurd hv (by simp),
                      fun _ => ⟨[], utf8Lossy (b1 :: r1), by simp⟩⟩
              · simp only [if_neg h5]
                exact ⟨fun hv => absurd hv (by simp),
                  fun _ => ⟨[], utf8Lossy rest, by simp⟩⟩

/-- C1: a `Dict` satisfying the `BTreeMap` representation invariant is
iterated (and therefore serialized, since the `Serialize` impl emits
entries in iteration order) in strictly ascending byte order of its keys —
every earlier key compares `lt` to every later key — and the invariant is
maintained by any insertion through `as_dict_mut`; moreover a map built by
inserting entries in any order satisfies it, so the order never depends on
insertion order. -/
theorem dict_iteration_sorted (d : List (List Nat × Value))
    (h : keysSorted d = true) :
    List.Pairwise (fun a b => byteListCmp a b = Ordering.lt) (d.map Prod.fst) ∧
    (∀ k v, keysSorted (btreeInsert d k v) = true) ∧
    (∀ l : List (List Nat × Value), keysSorted (btreeFromList l) = true) :=
  ⟨(keysSorted_iff_pairwise d).mp h,
   fun k v => keysSorted_btreeInsert d k v h,
   fun l => keysSorted_btreeFromList l⟩

theorem dict_iteration_sorted_witness :
    List.Pairwise (fun a b => byteListCmp a b = Ordering.lt)
      (([([97], Value.int 1), ([98], Value.int 2)]).map Prod.fst) ∧
    (∀ k v, keysSorted (btreeInsert [([97], Value.int 1), ([98], Value.int 2)] k v) = true) ∧
    (∀ l : List (List Nat × Value), keysSorted (btreeFromList l) = true) :=
  dict_iteration_sorted [([97], Value.int 1), ([98], Value.int 2)] (by decide)

/-- C2 counterexample: the `u64` conversion is not lossless — at
`2 ^ 63` (one past `i64::MAX`) the `v as i64` cast wraps to a negative
number, so `From<u64>` does not produce a `Value::Int` of equal numeric
value. -/
theorem value_from_u64_counterexample :
    value_from_u64 9223372036854775808 ≠ Value.int 9223372036854775808 := by
  have hmod : (9223372036854775808 : Nat) % 2 ^ 64 = 9223372036854775808 := by
    norm_num
  have hval : u64_as_i64 9223372036854775808 = -9223372036854775808 := by
    rw [u64_as_i64, hmod]
    rw [if_neg (by norm_num)]
    norm_num
  rw [value_from_u64, hval]
  intro h
  injection h with h'
  norm_num at h'

/-- C2 (amended): every conversion constructor from a native integer type
whose whole range fits in `i64` (`u8`, `u16`, `u32`, `i8`, `i16`, `i32`,
`i64`, `isize`) produces a `Value::Int` of equal numeric value, and so do
`From<u64>`/`From<usize>` and the visitor's `visit_u64` for values up to
`i64::MAX`; for larger `u64`/`usize` values the `as` cast wraps two's
complement, yielding `Value::Int (v - 2 ^ 64)`. -/
theorem value_from_num_amended :
    (∀ v : Nat, v < 2 ^ 8 → value_from_u8 v = .int v) ∧
    (∀ v : Nat, v < 2 ^ 16 → value_from_u16 v = .int v) ∧
    (∀ v : Nat, v < 2 ^ 32 → value_from_u32 v = .int v) ∧
    (∀ v : Nat, v < 2 ^ 63 →
      value_from_u64 v = .int v ∧ value_from_usize v = .int v ∧
        visit_u64 v = .int v) ∧
    (∀ v : Nat, 2 ^ 63 ≤ v → v < 2 ^ 64 →
      value_from_u64 v = .int ((v : Int) - 2 ^ 64) ∧
        value_from_usize v = .int ((v : Int) - 2 ^ 64) ∧
        visit_u64 v = .int ((v : Int) - 2 ^ 64)) ∧
    (∀ v : Int, -(2 ^ 7) ≤ v → v < 2 ^ 7 → value_from_i8 v = .int v) ∧
    (∀ v : Int, -(2 ^ 15) ≤ v → v < 2 ^ 15 → value_from_i16 v = .int v) ∧
    (∀ v : Int, -(2 ^ 31) ≤ v → v < 2 ^ 31 → value_from_i32 v = .int v) ∧
    (∀ v : Int, value_from_i64 v = .int v ∧ value_from_isize v = .int v ∧
      visit_i64 v = .int v) := by
  have hsmall : ∀ v : Nat, v < 2 ^ 63 → u64_as_i64 v = (v : Int) := by
    intro v hv
    rw [u64_as_i64]
    have hm : v % 2 ^ 64 = v := Nat.mod_eq_of_lt (by omega)
    rw [hm, if_pos hv]
  have hbig : ∀ v : Nat, 2 ^ 63 ≤ v → v < 2 ^ 64 →
      u64_as_i64 v = (v : Int) - 2 ^ 64 := by
    intro v h1 h2
    rw [u64_as_i64]
    have hm : v % 2 ^ 64 = v := Nat.mod_eq_of_lt h2
    rw [hm, if_neg (by omega)]
  refine ⟨fun v _ => rfl, fun v _ => rfl, fun v _ => rfl,
    fun v hv => ?_, fun v h1 h2 => ?_,
    fun v _ _ => rfl, fun v _ _ => rfl, fun v _ _ => rfl,
    fun v => ⟨rfl, rfl, rfl⟩⟩
  · rw [value_from_u64, value_from_usize, visit_u64, hsmall v hv]
    exact ⟨rfl, rfl, rfl⟩
  · rw [value_from_u64, value_from_usize, visit_u64, hbig v h1 h2]
    exact ⟨rfl, rfl, rfl⟩

theorem value_from_num_amended_witness :
    value_from_u8 7 = .int 7 ∧
    value_from_u32 70000 = .int 70000 ∧
    value_from_u64 5 = .int 5 ∧
    value_from_u64 9223372036854775808 =
      .int ((9223372036854775808 : Int) - 2 ^ 64) ∧
    value_from_i8 (-5) = .int (-5) ∧
    value_from_i64 (-9223372036854775808) = .int (-9223372036854775808) :=
  ⟨value_from_num_amended.1 7 (by norm_num),
   value_from_num_amended.2.2.1 70000 (by norm_num),
   (value_from_num_amended.2.2.2.1 5 (by norm_num)).1,
   (value_from_num_amended.2.2.2.2.1 9223372036854775808 (by norm_num)
     (by norm_num)).1,
   value_from_num_amended.2.2.2.2.2.1 (-5) (by norm_num) (by norm_num),
   (value_from_num_amended.2.2.2.2.2.2.2.2 (-9223372036854775808)).1⟩

/-- C3: `From<HashMap<String, Value>>` normalizes at construction time —
whatever order the unordered map's iterator yields its pairs in, the
resulting `Value::Dict` already satisfies the sorted-keys invariant, and
(since a `HashMap`'s keys are distinct) binds exactly the keys of the
input to exactly the same values; no sorting is left to encode time. -/
theorem value_from_hashmap_normalized (m : List (List Nat × Value)) :
    value_from_hashmap m = Value.dict (btreeFromList m) ∧
    keysSorted (btreeFromList m) = true ∧
    ((m.map Prod.fst).Nodup →
      ∀ k, assocLookup (btreeFromList m) k = assocLookup m k) := by
  refine ⟨rfl, keysSorted_btreeFromList m, fun hnd k => ?_⟩
  rw [assocLookup_btreeFromList, lastAssoc_eq_of_nodup m hnd]

theorem value_from_hashmap_normalized_witness :
    keysSorted (btreeFromList [([98], Value.int 2), ([97], Value.int 1)]) = true ∧
    assocLookup (btreeFromList [([98], Value.int 2), ([97], Value.int 1)]) [97] =
      assocLookup [([98], Value.int 2), ([97], Value.int 1)] [97] :=
  ⟨(value_from_hashmap_normalized [([98], Value.int 2), ([97], Value.int 1)]).2.1,
   (value_from_hashmap_normalized [([98], Value.int 2), ([97], Value.int 1)]).2.2
     (by decide) [97]⟩

/-- C4: each variant accessor returns `Some` of the payload exactly on its
own variant and `None` (never an error) on each of the other three
variants. -/
theorem value_accessors (n : Int) (s : List Nat) (vs : List Value)
    (es : List (List Nat × Value)) :
    as_i64 (.int n) = some n ∧ as_i64 (.text s) = none ∧
      as_i64 (.list vs) = none ∧ as_i64 (.dict es) = none ∧
    as_bytes (.text s) = some s ∧ as_bytes (.int n) = none ∧
      as_bytes (.list vs) = none ∧ as_bytes (.dict es) = none ∧
    as_bytes_mut (.text s) = some s ∧ as_bytes_mut (.int n) = none ∧
      as_bytes_mut (.list vs) = none ∧ as_bytes_mut (.dict es) = none ∧
    as_list (.list vs) = some vs ∧ as_list (.int n) = none ∧
      as_list (.text s) = none ∧ as_list (.dict es) = none ∧
    as_list_mut (.list vs) = some vs ∧ as_list_mut (.int n) = none ∧
      as_list_mut (.text s) = none ∧ as_list_mut (.dict es) = none ∧
    as_dict (.dict es) = some es ∧ as_dict (.int n) = none ∧
      as_dict (.text s) = none ∧ as_dict (.list vs) = none ∧
    as_dict_mut (.dict es) = some es ∧ as_dict_mut (.int n) = none ∧
      as_dict_mut (.text s) = none ∧ as_dict_mut (.list vs) = none :=
  ⟨rfl, rfl, rfl, rfl, rfl, rfl, rfl, rfl, rfl, rfl, rfl, rfl, rfl, rfl,
   rfl, rfl, rfl, rfl, rfl, rfl, rfl, rfl, rfl, rfl, rfl, rfl, rfl, rfl⟩

/-- C5: `as_str` (and `as_str_mut`) returns `Ok(None)` on every non-`Text`
variant, `Ok(Some s)` sharing the payload bytes when the `Text` payload is
valid UTF-8, and a `Utf8Error` — distinct from the absent result — exactly
when the payload is `Text` but not valid UTF-8. -/
theorem value_as_str_contract (n : Int) (vs : List Value)
    (es : List (List Nat × Value)) (s : List Nat) :
    as_str (.int n) = .ok none ∧ as_str (.list vs) = .ok none ∧
    as_str (.dict es) = .ok none ∧
    (validUtf8 s = true → as_str (.text s) = .ok (some s)) ∧
    (validUtf8 s = false → as_str (.text s) = .error ⟨⟩) ∧
    as_str_mut (.int n) = .ok none ∧ as_str_mut (.list vs) = .ok none ∧
    as_str_mut (.dict es) = .ok none ∧
    (validUtf8 s = true → as_str_mut (.text s) = .ok (some s)) ∧
    (validUtf8 s = false → as_str_mut (.text s) = .error ⟨⟩) := by
  refine ⟨rfl, rfl, rfl, fun h => ?_, fun h => ?_, rfl, rfl, rfl,
    fun h => ?_, fun h => ?_⟩ <;>
    simp [as_str, as_str_mut, h]

theorem value_as_str_witness :
    as_str (.text [102, 111, 111]) = .ok (some [102, 111, 111]) ∧
    as_str (.text [255]) = .error ⟨⟩ :=
  ⟨(value_as_str_contract 0 [] [] [102, 111, 111]).2.2.2.1 (by decide),
   (value_as_str_contract 0 [] [] [255]).2.2.2.2.1 (by decide)⟩

/-- C6: decoding the encoding of any canonical `Value` (integers in the
64-bit signed range, dict keys valid UTF-8 and strictly ascending)
returns exactly that value. -/
theorem decode_encode_roundtrip (v : Value) (h : wfValue v = true) :
    decode (encodeVal v) = .ok v := by
  rw [decode]
  have h1 := (parse_encode_main ((encodeVal v).length + 1)).1 v [] h (le_refl _)
  rw [List.append_nil] at h1
  rw [h1]

theorem decode_encode_roundtrip_witness :
    wfValue (Value.dict [([97], Value.int 1995)]) = true ∧
    decode (encodeVal (Value.dict [([97], Value.int 1995)])) =
      .ok (Value.dict [([97], Value.int 1995)]) := by
  have hw : wfValue (Value.dict [([97], Value.int 1995)]) = true := by
    rw [wfValue, wfEntries, wfValue, wfEntries]
    simp [keysSorted, validUtf8, i64Min, i64Max]
  exact ⟨hw, decode_encode_roundtrip _ hw⟩

/-- C7: decoding a byte sequence that encodes a dict whose (well-formed)
entries repeat a key fails with `DuplicateKey` instead of returning a
value. -/
theorem decode_duplicate_key (es : List (List Nat × Value))
    (hwf : wfEntries es = true) (hdup : ¬ (es.map Prod.fst).Nodup) :
    decode (encodeVal (.dict es)) = .error .duplicateKey := by
  have hinput : encodeVal (Value.dict es) =
      100 :: (encodeEntries es ++ 101 :: []) := by
    rw [encodeVal]
  rw [decode, hinput, parseVal]
  rw [if_neg (by omega : ¬ (100 : Nat) = 105)]
  rw [if_neg (by simp :
    ¬ (decide (48 ≤ (100 : Nat)) && decide ((100 : Nat) ≤ 57)) = true)]
  rw [if_neg (by omega : ¬ (100 : Nat) = 108)]
  rw [if_pos rfl]
  have hQ := (parse_encode_main
      ((100 :: (encodeEntries es ++ 101 :: [])).length)).2.2 es [] []
    hwf (by simp)
  rw [hQ, entDup_of_dup es [] (Or.inr hdup)]
  simp

theorem decode_duplicate_key_witness :
    decode (encodeVal (.dict [([97], Value.int 0), ([97], Value.int 1)])) =
      .error .duplicateKey := by
  have hwf : wfEntries [([97], Value.int 0), ([97], Value.int 1)] = true := by
    rw [wfEntries, wfValue, wfEntries, wfValue, wfEntries]
    simp [validUtf8, i64Min, i64Max]
  exact decode_duplicate_key _ hwf (by decide)

/-- C8: the `Display` rendering of a `Text` value is always defined — it is
the quoted output of `String::from_utf8_lossy` — and the lossy decoding
passes valid UTF-8 through unchanged while rendering any invalid payload
with the U+FFFD replacement sequence somewhere in the output rather than
failing.  (`displayValue` being a total function embeds the no-panic
guarantee for every variant.) -/
theorem display_text_lossy (s : List Nat) :
    displayValue (.text s) = 34 :: (utf8Lossy s ++ [34]) ∧
    (validUtf8 s = true → displayValue (.text s) = 34 :: (s ++ [34])) ∧
    (validUtf8 s = false → replacementBytes <:+: utf8Lossy s) := by
  have hspec := utf8Lossy_spec s.length s (le_refl _)
  refine ⟨by rw [displayValue], fun hv => ?_, fun hv => hspec.2 hv⟩
  rw [displayValue, hspec.1 hv]

theorem display_text_lossy_witness :
    displayValue (.text [104]) = 34 :: ([104] ++ [34]) ∧
    replacementBytes <:+: utf8Lossy [255] :=
  ⟨(display_text_lossy [104]).2.1 (by decide),
   (display_text_lossy [255]).2.2 (by decide)⟩

/-- C9: the string conversion constructor stores exactly the UTF-8 bytes of
the string as `Text`, and `as_str` on the result returns `Ok(Some _)` of
those same bytes — the constructor and the accessor round-trip. -/
theorem value_from_str_roundtrip (s : List Nat) (h : validUtf8 s = true) :
    value_from_str s = .text s ∧ as_str (value_from_str s) = .ok (some s) := by
  refine ⟨rfl, ?_⟩
  simp [value_from_str, as_str, h]

theorem value_from_str_roundtrip_witness :
    value_from_str [102, 111, 111] = .text [102, 111, 111] ∧
    as_str (value_from_str [102, 111, 111]) = .ok (some [102, 111, 111]) :=
  value_from_str_roundtrip [102, 111, 111] (by decide)

/-- C10: the `visit_map` visitor inserts every supplied entry into a fresh
`BTreeMap` and never errors (it is a total function into `Value`); the
resulting dict is sorted, holds each key exactly once, and binds every key
to the last value the event source supplied for it. -/
theorem visit_map_builds_dict (es : List (List Nat × Value)) :
    visit_map es = Value.dict (btreeFromList es) ∧
    keysSorted (btreeFromList es) = true ∧
    ((btreeFromList es).map Prod.fst).Nodup ∧
    ∀ k, assocLookup (btreeFromList es) k = lastAssoc es k := by
  refine ⟨rfl, keysSorted_btreeFromList es, ?_,
    fun k => assocLookup_btreeFromList es k⟩
  have hp := (keysSorted_iff_pairwise _).mp (keysSorted_btreeFromList es)
  exact hp.imp (fun hab => byteListCmp_lt_ne hab)

end Bende
